import Mathlib

/-!
Shallow embedding of the neighbor-list builder and force-adapter numerics of
openmm-ml's nequippotential.py.

The embedded code is the TorchScript function _simple_nl together with the
parts of NequIPForce (init and forward) in the claims.  Real arithmetic on
tensors is modelled exactly over the rationals.  Facts about the embedding:

* torch.round implements round-half-to-even; roundEven below reproduces it.
* torch.range(0, n-1) enumerates 0 .. n-1 inclusive; when n = 0 the call is
  torch.range(0, -1), and PyTorch's range kernel checks
  (step > 0 and end >= start) and raises
  RuntimeError "upper bound and larger bound inconsistent with step sign".
  simple_nl therefore returns Option, with none for an empty position list.
* the filter mask is distances > cutoff, edges are kept when the Euclidean
  norm of the wrapped displacement is <= cutoff; over the rationals this is
  encoded as 0 <= cutoff and squared-norm <= cutoff^2, which is equivalent
  to sqrt (squared-norm) <= cutoff over the reals.
-/

namespace OpenMMML

/-- 3-component vector of exact rationals (one row of a torch tensor of shape [*,3]). -/
structure V3 where
  x : ℚ
  y : ℚ
  z : ℚ
deriving DecidableEq, Repr

def V3.zero : V3 := ⟨0, 0, 0⟩

def V3.add (a b : V3) : V3 := ⟨a.x + b.x, a.y + b.y, a.z + b.z⟩

def V3.sub (a b : V3) : V3 := ⟨a.x - b.x, a.y - b.y, a.z - b.z⟩

def V3.neg (a : V3) : V3 := ⟨-a.x, -a.y, -a.z⟩

def V3.smul (c : ℚ) (a : V3) : V3 := ⟨c * a.x, c * a.y, c * a.z⟩

/-- Componentwise (Hadamard) product, used for shift * cell-diagonal. -/
def V3.mulComp (a b : V3) : V3 := ⟨a.x * b.x, a.y * b.y, a.z * b.z⟩

/-- Squared Euclidean norm. -/
def V3.normSq (a : V3) : ℚ := a.x ^ 2 + a.y ^ 2 + a.z ^ 2

/-- 3x3 cell matrix of exact rationals. -/
structure Mat3 where
  m00 : ℚ
  m01 : ℚ
  m02 : ℚ
  m10 : ℚ
  m11 : ℚ
  m12 : ℚ
  m20 : ℚ
  m21 : ℚ
  m22 : ℚ
deriving DecidableEq, Repr

def Mat3.diag (m : Mat3) : V3 := ⟨m.m00, m.m11, m.m22⟩

/-- The matrix torch.eye(3). -/
def Mat3.identity : Mat3 := ⟨1, 0, 0, 0, 1, 0, 0, 0, 1⟩

def Mat3.smul (c : ℚ) (m : Mat3) : Mat3 :=
  ⟨c * m.m00, c * m.m01, c * m.m02,
   c * m.m10, c * m.m11, c * m.m12,
   c * m.m20, c * m.m21, c * m.m22⟩

/-- The periodicity triple pbc (a boolean tensor of shape [3]). -/
structure PBC where
  p0 : Bool
  p1 : Bool
  p2 : Bool
deriving DecidableEq, Repr

/-- A directed edge of the neighbor list: source index, target index and the
floating-point-stored shift vector, exactly the per-column content of the
returned (neighbors, shifts) tensor pair. -/
structure Edge where
  i : ℕ
  j : ℕ
  s : V3
deriving DecidableEq, Repr

/-- Round half to even, the rounding rule of torch.round, as a function ℚ → ℤ. -/
def roundEven (q : ℚ) : ℤ :=
  if q - (⌊q⌋ : ℚ) < 1 / 2 then ⌊q⌋
  else if 1 / 2 < q - (⌊q⌋ : ℚ) then ⌊q⌋ + 1
  else if ⌊q⌋ % 2 = 0 then ⌊q⌋ else ⌊q⌋ + 1

/-- positions[k]; the builder only evaluates it at indices below the length. -/
def getPos (positions : List V3) (k : ℕ) : V3 := positions.getD k V3.zero

/-- The index pairs produced by repeat_interleave / repeat: all of
(0,0),(0,1),...,(0,n-1),(1,0),...,(n-1,n-1) in i-major order. -/
def allPairs (n : ℕ) : List (ℕ × ℕ) :=
  (List.range n).flatMap (fun i => (List.range n).map (fun j => (i, j)))

/-- The per-edge shift vector: when pbc[0] is set, the componentwise
round(full_delta / cell-diagonal); otherwise zero. -/
def edgeShift (cell : Mat3) (pbc : PBC) (d : V3) : V3 :=
  if pbc.p0 then
    ⟨(roundEven (d.x / cell.m00) : ℤ),
     (roundEven (d.y / cell.m11) : ℤ),
     (roundEven (d.z / cell.m22) : ℤ)⟩
  else V3.zero

/-- Builds the edge for index pair p: full_delta = positions[i] - positions[j],
shift as in the source. -/
def mkEdge (positions : List V3) (cell : Mat3) (pbc : PBC) (p : ℕ × ℕ) : Edge :=
  { i := p.1, j := p.2,
    s := edgeShift cell pbc (V3.sub (getPos positions p.1) (getPos positions p.2)) }

/-- The wrapped displacement deltas of an edge: full_delta - shift * cell-diagonal.
In the non-periodic branch the shift is zero, so this single formula covers
both branches of the source. -/
def wrappedOf (positions : List V3) (cell : Mat3) (e : Edge) : V3 :=
  V3.sub (V3.sub (getPos positions e.i) (getPos positions e.j))
    (V3.mulComp e.s (Mat3.diag cell))

/-- The filter: the source drops edges with distances > cutoff and keeps the
rest, i.e. keeps an edge iff norm(deltas) <= cutoff.  Over ℚ this is encoded
squared: 0 <= cutoff and normSq <= cutoff^2. -/
def keepEdge (positions : List V3) (cell : Mat3) (cutoff : ℚ) (e : Edge) : Bool :=
  decide (0 ≤ cutoff ∧ V3.normSq (wrappedOf positions cell e) ≤ cutoff ^ 2)

/-- The index pairs surviving the self-interaction mask: all pairs when
self_interaction is set, otherwise the pairs with i different from j. -/
def nlPairs (n : ℕ) (self_interaction : Bool) : List (ℕ × ℕ) :=
  if self_interaction then allPairs n
  else (allPairs n).filter (fun p => !(p.1 == p.2))

/-- The edge list body of _simple_nl: build an edge per surviving pair, then
drop the edges whose wrapped displacement is farther than the cutoff. -/
def nlEdges (positions : List V3) (cell : Mat3) (pbc : PBC) (cutoff : ℚ)
    (self_interaction : Bool) : List Edge :=
  ((nlPairs positions.length self_interaction).map (mkEdge positions cell pbc)).filter
    (keepEdge positions cell cutoff)

/-- Shallow embedding of _simple_nl.  Returns none exactly when the position
list is empty (torch.range(0, -1) raises), otherwise the kept edges with
their shifts, in source order. -/
def simple_nl (positions : List V3) (cell : Mat3) (pbc : PBC) (cutoff : ℚ)
    (self_interaction : Bool) : Option (List Edge) :=
  if positions.length = 0 then none
  else some (nlEdges positions cell pbc cutoff self_interaction)

/-! Properties of round half to even. -/

theorem roundEven_zero : roundEven 0 = 0 := by
  norm_num [roundEven]

/-- roundEven q is a nearest integer to q: no integer t is strictly closer. -/
theorem roundEven_best (q : ℚ) (t : ℤ) :
    |q - (roundEven q : ℚ)| ≤ |q - (t : ℚ)| := by
  have h0 : (⌊q⌋ : ℚ) ≤ q := Int.floor_le q
  have h1 : q < (⌊q⌋ : ℚ) + 1 := Int.lt_floor_add_one q
  have ht : (t : ℚ) ≤ (⌊q⌋ : ℚ) ∨ (⌊q⌋ : ℚ) + 1 ≤ (t : ℚ) := by
    rcases le_or_lt t ⌊q⌋ with h | h
    · exact Or.inl (by exact_mod_cast h)
    · exact Or.inr (by exact_mod_cast Int.add_one_le_iff.mpr h)
  have hA : q - (t : ℚ) ≤ |q - (t : ℚ)| := le_abs_self _
  have hB : (t : ℚ) - q ≤ |q - (t : ℚ)| := by
    rw [abs_sub_comm]; exact le_abs_self _
  unfold roundEven
  split_ifs with hc1 hc2 hc3
  · rw [abs_of_nonneg (by linarith : (0 : ℚ) ≤ q - (⌊q⌋ : ℚ))]
    rcases ht with h | h <;> linarith
  · push_cast
    rw [abs_of_nonpos (by linarith : q - ((⌊q⌋ : ℚ) + 1) ≤ 0)]
    rcases ht with h | h <;> linarith
  · rw [abs_of_nonneg (by linarith : (0 : ℚ) ≤ q - (⌊q⌋ : ℚ))]
    rcases ht with h | h <;> linarith
  · push_cast
    rw [abs_of_nonpos (by linarith : q - ((⌊q⌋ : ℚ) + 1) ≤ 0)]
    rcases ht with h | h <;> linarith

/-! Componentwise algebra on V3. -/

theorem V3.sub_self (a : V3) : V3.sub a a = V3.zero := by
  simp [V3.sub, V3.zero]

theorem V3.sub_swap (a b : V3) : V3.sub b a = V3.neg (V3.sub a b) := by
  simp [V3.sub, V3.neg]

theorem V3.normSq_neg (a : V3) : (V3.neg a).normSq = a.normSq := by
  simp [V3.neg, V3.normSq]

theorem V3.mulComp_neg_left (a b : V3) :
    V3.mulComp (V3.neg a) b = V3.neg (V3.mulComp a b) := by
  simp [V3.neg, V3.mulComp]

theorem V3.neg_sub_neg (a b : V3) :
    V3.sub (V3.neg a) (V3.neg b) = V3.neg (V3.sub a b) := by
  simp [V3.neg, V3.sub, neg_sub]
  refine ⟨by ring, by ring, by ring⟩

/-- round half to even is an odd function, exactly as torch.round is. -/
theorem roundEven_neg (q : ℚ) : roundEven (-q) = -roundEven q := by
  by_cases hq : (⌊q⌋ : ℚ) = q
  · have hfl : ⌊-q⌋ = -⌊q⌋ := by
      rw [show -q = ((-⌊q⌋ : ℤ) : ℚ) by push_cast; linarith, Int.floor_intCast]
    unfold roundEven
    rw [hfl]
    push_cast
    rw [← hq]
    norm_num
  · have h0 : (⌊q⌋ : ℚ) ≤ q := Int.floor_le q
    have h0s : (⌊q⌋ : ℚ) < q := lt_of_le_of_ne h0 hq
    have h1 : q < (⌊q⌋ : ℚ) + 1 := Int.lt_floor_add_one q
    have hfl : ⌊-q⌋ = -⌊q⌋ - 1 := by
      rw [Int.floor_eq_iff]
      push_cast
      constructor <;> linarith
    unfold roundEven
    rw [hfl]
    split_ifs <;>
      push_cast at * <;>
      first
        | omega
        | (exfalso; linarith)

/-! Shift-vector lemmas. -/

theorem edgeShift_neg (cell : Mat3) (pbc : PBC) (d : V3) :
    edgeShift cell pbc (V3.neg d) = V3.neg (edgeShift cell pbc d) := by
  unfold edgeShift
  split_ifs
  · simp [V3.neg, neg_div, roundEven_neg]
  · simp [V3.neg, V3.zero]

theorem edgeShift_of_zero (cell : Mat3) (pbc : PBC) :
    edgeShift cell pbc V3.zero = V3.zero := by
  unfold edgeShift
  split_ifs
  · simp [V3.zero, zero_div, roundEven_zero]
  · rfl

/-! Structure of the pair and edge lists. -/

theorem mem_allPairs {n : ℕ} {p : ℕ × ℕ} : p ∈ allPairs n ↔ p.1 < n ∧ p.2 < n := by
  cases p with
  | mk i j =>
    simp [allPairs, List.mem_flatMap, List.mem_map, List.mem_range, eq_comm (b := (i, j))]

theorem nodup_allPairs (n : ℕ) : (allPairs n).Nodup := by
  unfold allPairs
  refine List.nodup_flatMap.mpr ⟨fun i _ => ?_, ?_⟩
  · exact List.Nodup.map (fun a b h => by simpa using h) (List.nodup_range n)
  · refine (List.pairwise_lt_range n).imp ?_
    intro a b hab
    intro x hx1 hx2
    obtain ⟨b1, _, rfl⟩ := List.mem_map.mp hx1
    obtain ⟨b2, _, h2⟩ := List.mem_map.mp hx2
    have : a = b := by
      have := congrArg Prod.fst h2
      simpa using this.symm
    exact absurd this (Nat.ne_of_lt hab)

theorem nodup_nlPairs (n : ℕ) (si : Bool) : (nlPairs n si).Nodup := by
  unfold nlPairs
  split_ifs
  · exact nodup_allPairs n
  · exact (nodup_allPairs n).filter _

theorem mem_nlPairs {n : ℕ} {si : Bool} {p : ℕ × ℕ} :
    p ∈ nlPairs n si ↔ p.1 < n ∧ p.2 < n ∧ (si = true ∨ p.1 ≠ p.2) := by
  unfold nlPairs
  split_ifs with h
  · simp [mem_allPairs, h, and_assoc]
  · simp only [List.mem_filter, mem_allPairs, h]
    simp [and_assoc]

theorem nodup_nlEdges (positions : List V3) (cell : Mat3) (pbc : PBC) (cutoff : ℚ)
    (si : Bool) : (nlEdges positions cell pbc cutoff si).Nodup := by
  unfold nlEdges
  apply List.Nodup.filter
  apply List.Nodup.map_on ?_ (nodup_nlPairs _ _)
  intro x _ y _ h
  have h1 : x.1 = y.1 := congrArg Edge.i h
  have h2 : x.2 = y.2 := congrArg Edge.j h
  exact Prod.ext h1 h2

theorem mem_nlEdges {positions : List V3} {cell : Mat3} {pbc : PBC} {cutoff : ℚ}
    {si : Bool} {e : Edge} :
    e ∈ nlEdges positions cell pbc cutoff si ↔
      e.i < positions.length ∧ e.j < positions.length ∧ (si = true ∨ e.i ≠ e.j) ∧
        e = mkEdge positions cell pbc (e.i, e.j) ∧
        keepEdge positions cell cutoff e = true := by
  unfold nlEdges
  rw [List.mem_filter, List.mem_map]
  constructor
  · rintro ⟨⟨p, hp, rfl⟩, hk⟩
    have hm := mem_nlPairs.mp hp
    refine ⟨hm.1, hm.2.1, hm.2.2, ?_, hk⟩
    cases p
    rfl
  · rintro ⟨h1, h2, h3, he, hk⟩
    exact ⟨⟨(e.i, e.j), mem_nlPairs.mpr ⟨h1, h2, h3⟩, he.symm⟩, hk⟩

theorem simple_nl_eq_some {positions : List V3} {cell : Mat3} {pbc : PBC} {cutoff : ℚ}
    {si : Bool} {R : List Edge}
    (hR : simple_nl positions cell pbc cutoff si = some R) :
    R = nlEdges positions cell pbc cutoff si := by
  unfold simple_nl at hR
  by_cases h : positions.length = 0
  · rw [if_pos h] at hR
    cases hR
  · rw [if_neg h] at hR
    exact (Option.some.inj hR).symm

/-! Reversal symmetry of edges. -/

theorem mkEdge_swap (positions : List V3) (cell : Mat3) (pbc : PBC) (i j : ℕ) :
    mkEdge positions cell pbc (j, i) =
      Edge.mk j i (V3.neg (mkEdge positions cell pbc (i, j)).s) := by
  simp only [mkEdge, Edge.mk.injEq, true_and]
  rw [V3.sub_swap, edgeShift_neg]

theorem wrappedOf_swap (positions : List V3) (cell : Mat3) (i j : ℕ) (s : V3) :
    wrappedOf positions cell (Edge.mk j i (V3.neg s)) =
      V3.neg (wrappedOf positions cell (Edge.mk i j s)) := by
  unfold wrappedOf
  simp only []
  show V3.sub (V3.sub (getPos positions j) (getPos positions i)) _ = _
  rw [V3.sub_swap (getPos positions i) (getPos positions j), V3.mulComp_neg_left,
    V3.neg_sub_neg]

theorem keepEdge_swap (positions : List V3) (cell : Mat3) (cutoff : ℚ) (i j : ℕ) (s : V3) :
    keepEdge positions cell cutoff (Edge.mk j i (V3.neg s)) =
      keepEdge positions cell cutoff (Edge.mk i j s) := by
  unfold keepEdge
  rw [decide_eq_decide]
  rw [wrappedOf_swap, V3.normSq_neg]

theorem V3.mulComp_zero_left (b : V3) : V3.mulComp V3.zero b = V3.zero := by
  simp [V3.zero, V3.mulComp]

theorem V3.sub_zero (a : V3) : V3.sub a V3.zero = a := by
  simp [V3.sub, V3.zero]

/-! Optimality of the round-to-nearest periodic shift. -/

/-- Componentwise: for a positive edge length L, the multiple of L chosen by
round(x / L) is at least as close to x as any other integer multiple. -/
theorem roundShift_opt (L : ℚ) (hL : 0 < L) (x : ℚ) (t : ℤ) :
    (x - (roundEven (x / L) : ℚ) * L) ^ 2 ≤ (x - (t : ℚ) * L) ^ 2 := by
  have hL0 : L ≠ 0 := ne_of_gt hL
  have h1 : |x / L - (roundEven (x / L) : ℚ)| ≤ |x / L - (t : ℚ)| := roundEven_best _ t
  have e1 : x - (roundEven (x / L) : ℚ) * L = (x / L - (roundEven (x / L) : ℚ)) * L := by
    field_simp
    ring
  have e2 : x - (t : ℚ) * L = (x / L - (t : ℚ)) * L := by
    field_simp
    ring
  have h2 : |x - (roundEven (x / L) : ℚ) * L| ≤ |x - (t : ℚ) * L| := by
    rw [e1, e2, abs_mul, abs_mul]
    exact mul_le_mul_of_nonneg_right h1 (abs_nonneg L)
  calc (x - (roundEven (x / L) : ℚ) * L) ^ 2
      = |x - (roundEven (x / L) : ℚ) * L| ^ 2 := (sq_abs _).symm
    _ ≤ |x - (t : ℚ) * L| ^ 2 := pow_le_pow_left₀ (abs_nonneg _) h2 2
    _ = (x - (t : ℚ) * L) ^ 2 := sq_abs _

/-- Some periodic image of the displacement d (under integer combinations of
the diagonal edge lengths) lies within the cutoff; for nonnegative cutoff
this says exactly that the minimum-image distance is at most the cutoff. -/
def withinCutoffImage (d : V3) (cellDiag : V3) (cutoff : ℚ) : Prop :=
  ∃ t1 t2 t3 : ℤ,
    V3.normSq (V3.sub d
      ⟨(t1 : ℚ) * cellDiag.x, (t2 : ℚ) * cellDiag.y, (t3 : ℚ) * cellDiag.z⟩) ≤ cutoff ^ 2

/-- In the periodic branch with a positive diagonal, a pair whose minimum-image
distance is within the cutoff passes the distance filter. -/
theorem keepEdge_of_image {positions : List V3} {cell : Mat3} {cutoff : ℚ} {pbc : PBC}
    (hper : pbc.p0 = true)
    (hx : 0 < cell.m00) (hy : 0 < cell.m11) (hz : 0 < cell.m22) (hc : 0 ≤ cutoff)
    (i j : ℕ)
    (him : withinCutoffImage (V3.sub (getPos positions i) (getPos positions j))
      (Mat3.diag cell) cutoff) :
    keepEdge positions cell cutoff (mkEdge positions cell pbc (i, j)) = true := by
  obtain ⟨t1, t2, t3, hI⟩ := him
  unfold keepEdge
  rw [decide_eq_true_eq]
  refine ⟨hc, ?_⟩
  have hwr : V3.normSq (wrappedOf positions cell (mkEdge positions cell pbc (i, j))) =
      ((V3.sub (getPos positions i) (getPos positions j)).x -
        (roundEven ((V3.sub (getPos positions i) (getPos positions j)).x / cell.m00) : ℚ) *
          cell.m00) ^ 2 +
      ((V3.sub (getPos positions i) (getPos positions j)).y -
        (roundEven ((V3.sub (getPos positions i) (getPos positions j)).y / cell.m11) : ℚ) *
          cell.m11) ^ 2 +
      ((V3.sub (getPos positions i) (getPos positions j)).z -
        (roundEven ((V3.sub (getPos positions i) (getPos positions j)).z / cell.m22) : ℚ) *
          cell.m22) ^ 2 := by
    simp [wrappedOf, mkEdge, edgeShift, hper, V3.sub, V3.mulComp, Mat3.diag, V3.normSq]
  rw [hwr]
  have hI2 : ((V3.sub (getPos positions i) (getPos positions j)).x - (t1 : ℚ) * cell.m00) ^ 2 +
      ((V3.sub (getPos positions i) (getPos positions j)).y - (t2 : ℚ) * cell.m11) ^ 2 +
      ((V3.sub (getPos positions i) (getPos positions j)).z - (t3 : ℚ) * cell.m22) ^ 2
        ≤ cutoff ^ 2 := by
    simpa [V3.sub, V3.normSq, Mat3.diag] using hI
  have o1 := roundShift_opt cell.m00 hx ((V3.sub (getPos positions i) (getPos positions j)).x) t1
  have o2 := roundShift_opt cell.m11 hy ((V3.sub (getPos positions i) (getPos positions j)).y) t2
  have o3 := roundShift_opt cell.m22 hz ((V3.sub (getPos positions i) (getPos positions j)).z) t3
  linarith

/-! The force-adapter state and per-step evaluation fragments of NequIPForce. -/

/-- State of the scripted NequIPForce module fixed at initialization. -/
structure NequIPState where
  nmToDistance : ℚ
  distanceToNm : ℚ
  energyToKJ : ℚ
  pbc : PBC
  rMax : ℚ
  indices : Option (List ℕ)

/-- Embeds NequIPForce.__init__: nm_to_distance = 1/distance_to_nm, pbc fixed
from the periodic flag, the ML-atom index subset stored as given. -/
def initState (distanceToNm energyToKJ rMax : ℚ) (periodic : Bool)
    (indices : Option (List ℕ)) : NequIPState :=
  { nmToDistance := 1 / distanceToNm
    distanceToNm := distanceToNm
    energyToKJ := energyToKJ
    pbc := if periodic then PBC.mk true true true else PBC.mk false false false
    rMax := rMax
    indices := indices }

/-- Embeds the position setup of forward: optional subset selection, then
conversion to the model's length unit. -/
def forwardPositions (st : NequIPState) (positions : List V3) : List V3 :=
  (match st.indices with
   | none => positions
   | some idx => idx.map (getPos positions)).map (V3.smul st.nmToDistance)

/-- Embeds the cell setup of forward: the unit-converted box vectors when
supplied, torch.eye(3) otherwise. -/
def forwardCell (st : NequIPState) (boxvectors : Option Mat3) : Mat3 :=
  match boxvectors with
  | some bv => Mat3.smul st.nmToDistance bv
  | none => Mat3.identity

/-- The neighbor-list call of forward: _simple_nl on the prepared positions,
the cell from forwardCell, the pbc fixed at init, cutoff r_max, and
self_interaction hard-coded to False. -/
def forwardNL (st : NequIPState) (positions : List V3) (boxvectors : Option Mat3) :
    Option (List Edge) :=
  simple_nl (forwardPositions st positions) (forwardCell st boxvectors) st.pbc st.rMax false

/-- Embeds the output conversion of forward: energy * energy_to_kJ and
forces * energy_to_kJ / distance_to_nm, componentwise. -/
def forwardOutput (st : NequIPState) (energy : ℚ) (forces : List V3) : ℚ × List V3 :=
  (energy * st.energyToKJ,
   forces.map (fun g =>
     V3.mk (g.x * st.energyToKJ / st.distanceToNm) (g.y * st.energyToKJ / st.distanceToNm)
       (g.z * st.energyToKJ / st.distanceToNm)))

/-- Conversion of a force from model units to host units by the adapter's
stated constants. -/
def forceToHost (st : NequIPState) (f : V3) : V3 :=
  V3.smul (st.energyToKJ / st.distanceToNm) f

/-- Conversion of a force from host units to model units, the inverse use of
the same two constants. -/
def forceToModel (st : NequIPState) (f : V3) : V3 :=
  V3.smul (st.distanceToNm / st.energyToKJ) f

/-- The cell with the off-diagonal entries cleared. -/
def diagOnly (m : Mat3) : Mat3 :=
  ⟨m.m00, 0, 0, 0, m.m11, 0, 0, 0, m.m22⟩

/-! Dependence of the builder on pbc[0] and the cell diagonal only. -/

theorem edgeShift_congr {c1 c2 : Mat3} {b1 b2 : PBC}
    (h0 : b1.p0 = b2.p0) (h00 : c1.m00 = c2.m00) (h11 : c1.m11 = c2.m11)
    (h22 : c1.m22 = c2.m22) (d : V3) :
    edgeShift c1 b1 d = edgeShift c2 b2 d := by
  unfold edgeShift
  rw [h0, h00, h11, h22]

theorem diag_congr {c1 c2 : Mat3} (h00 : c1.m00 = c2.m00) (h11 : c1.m11 = c2.m11)
    (h22 : c1.m22 = c2.m22) : Mat3.diag c1 = Mat3.diag c2 := by
  unfold Mat3.diag
  rw [h00, h11, h22]

theorem keepEdge_congr (positions : List V3) {c1 c2 : Mat3} (cutoff : ℚ)
    (h00 : c1.m00 = c2.m00) (h11 : c1.m11 = c2.m11) (h22 : c1.m22 = c2.m22) (e : Edge) :
    keepEdge positions c1 cutoff e = keepEdge positions c2 cutoff e := by
  unfold keepEdge wrappedOf
  rw [diag_congr h00 h11 h22]

theorem nlEdges_congr (positions : List V3) {c1 c2 : Mat3} {b1 b2 : PBC} (cutoff : ℚ)
    (si : Bool) (h0 : b1.p0 = b2.p0) (h00 : c1.m00 = c2.m00) (h11 : c1.m11 = c2.m11)
    (h22 : c1.m22 = c2.m22) :
    nlEdges positions c1 b1 cutoff si = nlEdges positions c2 b2 cutoff si := by
  unfold nlEdges
  rw [List.filter_congr (fun e _ => keepEdge_congr positions cutoff h00 h11 h22 e)]
  rw [List.map_congr_left (fun p _ => ?_)]
  unfold mkEdge
  rw [edgeShift_congr h0 h00 h11 h22]

theorem simple_nl_congr (positions : List V3) {c1 c2 : Mat3} {b1 b2 : PBC} (cutoff : ℚ)
    (si : Bool) (h0 : b1.p0 = b2.p0) (h00 : c1.m00 = c2.m00) (h11 : c1.m11 = c2.m11)
    (h22 : c1.m22 = c2.m22) :
    simple_nl positions c1 b1 cutoff si = simple_nl positions c2 b2 cutoff si := by
  unfold simple_nl
  rw [nlEdges_congr positions cutoff si h0 h00 h11 h22]

/-! Shared elimination helpers. -/

theorem keepEdge_elim {positions : List V3} {cell : Mat3} {cutoff : ℚ} {e : Edge}
    (h : keepEdge positions cell cutoff e = true) :
    0 ≤ cutoff ∧ V3.normSq (wrappedOf positions cell e) ≤ cutoff ^ 2 := by
  simpa [keepEdge, decide_eq_true_eq] using h

theorem mem_simple_nl_elim {positions : List V3} {cell : Mat3} {pbc : PBC} {cutoff : ℚ}
    {si : Bool} {R : List Edge} {e : Edge}
    (hR : simple_nl positions cell pbc cutoff si = some R) (he : e ∈ R) :
    e.i < positions.length ∧ e.j < positions.length ∧ (si = true ∨ e.i ≠ e.j) ∧
      e = mkEdge positions cell pbc (e.i, e.j) ∧
      keepEdge positions cell cutoff e = true := by
  rw [simple_nl_eq_some hR] at he
  exact mem_nlEdges.mp he

theorem sqrt_normSq_le {a : V3} {c : ℚ} (h : V3.normSq a ≤ c ^ 2) (hc : 0 ≤ c) :
    Real.sqrt ((V3.normSq a : ℚ) : ℝ) ≤ ((c : ℚ) : ℝ) := by
  have h1 : ((V3.normSq a : ℚ) : ℝ) ≤ ((c : ℚ) : ℝ) ^ 2 := by exact_mod_cast h
  have hc2 : (0 : ℝ) ≤ ((c : ℚ) : ℝ) := by exact_mod_cast hc
  calc Real.sqrt ((V3.normSq a : ℚ) : ℝ)
      ≤ Real.sqrt (((c : ℚ) : ℝ) ^ 2) := Real.sqrt_le_sqrt h1
    _ = ((c : ℚ) : ℝ) := by rw [Real.sqrt_sq hc2]

/-- Closure of the kept edge list under reversal, at the level of nlEdges. -/
theorem nlEdges_reverse_mem {positions : List V3} {cell : Mat3} {pbc : PBC} {cutoff : ℚ}
    {si : Bool} {e : Edge} (he : e ∈ nlEdges positions cell pbc cutoff si) :
    Edge.mk e.j e.i (V3.neg e.s) ∈ nlEdges positions cell pbc cutoff si := by
  obtain ⟨i, j, s⟩ := e
  rw [mem_nlEdges] at he ⊢
  obtain ⟨hi, hj, hcond, hee, hk⟩ := he
  refine ⟨hj, hi, ?_, ?_, ?_⟩
  · rcases hcond with h | h
    · exact Or.inl h
    · exact Or.inr (Ne.symm h)
  · rw [mkEdge_swap, ← hee]
  · rw [keepEdge_swap]
    exact hk

/-- C1: for every periodic orthogonal input, every returned edge (i, j) with
shift s satisfies: the wrapped displacement equals (position[i] - position[j])
minus the componentwise product of s with the cell's diagonal edge lengths,
and the Euclidean norm of that wrapped displacement is at most the cutoff. -/
theorem c1_periodic_edges_within_cutoff
    (positions : List V3) (cell : Mat3) (pbc : PBC) (cutoff : ℚ) (si : Bool)
    (R : List Edge)
    (hper : pbc.p0 = true)
    (horth : cell.m01 = 0 ∧ cell.m02 = 0 ∧ cell.m10 = 0 ∧ cell.m12 = 0 ∧
      cell.m20 = 0 ∧ cell.m21 = 0)
    (hR : simple_nl positions cell pbc cutoff si = some R) :
    ∀ e ∈ R,
      Real.sqrt ((V3.normSq (V3.sub
          (V3.sub (getPos positions e.i) (getPos positions e.j))
          (V3.mulComp e.s (Mat3.diag cell))) : ℚ) : ℝ) ≤ ((cutoff : ℚ) : ℝ) := by
  intro e he
  obtain ⟨-, -, -, -, hk⟩ := mem_simple_nl_elim hR he
  have hke := keepEdge_elim hk
  exact sqrt_normSq_le hke.2 hke.1

/-- Witness for C1: scenario B, two atoms at z = 0 and z = 0.9 in the unit
cubic cell with cutoff 0.3; the returned edge (0, 1) has shift (0, 0, -1) and
its wrapped displacement has norm at most 0.3. -/
theorem c1_periodic_edges_within_cutoff_witness :
    Real.sqrt ((V3.normSq (V3.sub
        (V3.sub (getPos [V3.mk 0 0 0, V3.mk 0 0 (9/10)] (Edge.mk 0 1 (V3.mk 0 0 (-1))).i)
          (getPos [V3.mk 0 0 0, V3.mk 0 0 (9/10)] (Edge.mk 0 1 (V3.mk 0 0 (-1))).j))
        (V3.mulComp (Edge.mk 0 1 (V3.mk 0 0 (-1))).s (Mat3.diag Mat3.identity))) : ℚ) : ℝ)
      ≤ (((3/10 : ℚ)) : ℝ) :=
  c1_periodic_edges_within_cutoff
    [V3.mk 0 0 0, V3.mk 0 0 (9/10)] Mat3.identity (PBC.mk true true true) (3/10) false
    [Edge.mk 0 1 (V3.mk 0 0 (-1)), Edge.mk 1 0 (V3.mk 0 0 1)]
    rfl ⟨rfl, rfl, rfl, rfl, rfl, rfl⟩
    (by norm_num [simple_nl, nlEdges, nlPairs, allPairs, List.range_succ, mkEdge, edgeShift,
      keepEdge, wrappedOf, roundEven, getPos, V3.sub, V3.normSq, V3.mulComp, V3.zero,
      Mat3.identity, Mat3.diag])
    (Edge.mk 0 1 (V3.mk 0 0 (-1))) (List.mem_cons_self _ _)

/-- C2: under periodicity with a positive diagonal cell, the returned edge
and shift set is closed under (i, j, s) to (j, i, -s); and every unordered
pair of distinct atoms whose minimum-image distance is at most the cutoff
appears as exactly one directed edge (i, j) and exactly one directed edge
(j, i), with shift vectors exact negatives of each other. -/
theorem c2_edge_set_symmetric
    (positions : List V3) (cell : Mat3) (pbc : PBC) (cutoff : ℚ) (si : Bool)
    (R : List Edge)
    (hper : pbc.p0 = true)
    (hx : 0 < cell.m00) (hy : 0 < cell.m11) (hz : 0 < cell.m22) (hc : 0 ≤ cutoff)
    (hR : simple_nl positions cell pbc cutoff si = some R) :
    (∀ e ∈ R, Edge.mk e.j e.i (V3.neg e.s) ∈ R) ∧
    (∀ i j : ℕ, i < positions.length → j < positions.length → i ≠ j →
      withinCutoffImage (V3.sub (getPos positions i) (getPos positions j))
        (Mat3.diag cell) cutoff →
      ∃ s : V3, Edge.mk i j s ∈ R ∧ Edge.mk j i (V3.neg s) ∈ R ∧
        List.count (Edge.mk i j s) R = 1 ∧ List.count (Edge.mk j i (V3.neg s)) R = 1 ∧
        (∀ e ∈ R, e.i = i → e.j = j → e = Edge.mk i j s) ∧
        (∀ e ∈ R, e.i = j → e.j = i → e = Edge.mk j i (V3.neg s))) := by
  have hRe : R = nlEdges positions cell pbc cutoff si := simple_nl_eq_some hR
  subst hRe
  constructor
  · intro e he
    exact nlEdges_reverse_mem he
  · intro i j hi hj hij him
    have hkE : keepEdge positions cell cutoff (mkEdge positions cell pbc (i, j)) = true :=
      keepEdge_of_image hper hx hy hz hc i j him
    have hmE : mkEdge positions cell pbc (i, j) ∈ nlEdges positions cell pbc cutoff si := by
      rw [mem_nlEdges]
      exact ⟨hi, hj, Or.inr hij, rfl, hkE⟩
    have hmE' : Edge.mk j i (V3.neg (mkEdge positions cell pbc (i, j)).s) ∈
        nlEdges positions cell pbc cutoff si := nlEdges_reverse_mem hmE
    refine ⟨(mkEdge positions cell pbc (i, j)).s, hmE, hmE', ?_, ?_, ?_, ?_⟩
    · exact List.count_eq_one_of_mem (nodup_nlEdges positions cell pbc cutoff si) hmE
    · exact List.count_eq_one_of_mem (nodup_nlEdges positions cell pbc cutoff si) hmE'
    · intro e he hei hej
      obtain ⟨-, -, -, hee, -⟩ := mem_nlEdges.mp he
      rw [hei, hej] at hee
      exact hee
    · intro e he hei hej
      obtain ⟨-, -, -, hee, -⟩ := mem_nlEdges.mp he
      rw [hei, hej] at hee
      rw [hee, mkEdge_swap]

/-- Witness for C2: scenario B, two atoms at z = 0 and z = 0.9 in the unit
cubic cell with cutoff 0.3; the full conclusion holds for the concretely
computed edge list. -/
theorem c2_edge_set_symmetric_witness :
    (∀ e ∈ [Edge.mk 0 1 (V3.mk 0 0 (-1)), Edge.mk 1 0 (V3.mk 0 0 1)],
      Edge.mk e.j e.i (V3.neg e.s) ∈ [Edge.mk 0 1 (V3.mk 0 0 (-1)), Edge.mk 1 0 (V3.mk 0 0 1)]) ∧
    (∀ i j : ℕ, i < ([V3.mk 0 0 0, V3.mk 0 0 (9/10)] : List V3).length →
      j < ([V3.mk 0 0 0, V3.mk 0 0 (9/10)] : List V3).length → i ≠ j →
      withinCutoffImage (V3.sub (getPos [V3.mk 0 0 0, V3.mk 0 0 (9/10)] i)
        (getPos [V3.mk 0 0 0, V3.mk 0 0 (9/10)] j)) (Mat3.diag Mat3.identity) (3/10) →
      ∃ s : V3, Edge.mk i j s ∈ [Edge.mk 0 1 (V3.mk 0 0 (-1)), Edge.mk 1 0 (V3.mk 0 0 1)] ∧
        Edge.mk j i (V3.neg s) ∈ [Edge.mk 0 1 (V3.mk 0 0 (-1)), Edge.mk 1 0 (V3.mk 0 0 1)] ∧
        List.count (Edge.mk i j s) [Edge.mk 0 1 (V3.mk 0 0 (-1)), Edge.mk 1 0 (V3.mk 0 0 1)] = 1 ∧
        List.count (Edge.mk j i (V3.neg s))
          [Edge.mk 0 1 (V3.mk 0 0 (-1)), Edge.mk 1 0 (V3.mk 0 0 1)] = 1 ∧
        (∀ e ∈ [Edge.mk 0 1 (V3.mk 0 0 (-1)), Edge.mk 1 0 (V3.mk 0 0 1)],
          e.i = i → e.j = j → e = Edge.mk i j s) ∧
        (∀ e ∈ [Edge.mk 0 1 (V3.mk 0 0 (-1)), Edge.mk 1 0 (V3.mk 0 0 1)],
          e.i = j → e.j = i → e = Edge.mk j i (V3.neg s))) :=
  c2_edge_set_symmetric
    [V3.mk 0 0 0, V3.mk 0 0 (9/10)] Mat3.identity (PBC.mk true true true) (3/10) false
    [Edge.mk 0 1 (V3.mk 0 0 (-1)), Edge.mk 1 0 (V3.mk 0 0 1)]
    rfl (by norm_num [Mat3.identity]) (by norm_num [Mat3.identity])
    (by norm_num [Mat3.identity]) (by norm_num)
    (by norm_num [simple_nl, nlEdges, nlPairs, allPairs, List.range_succ, mkEdge, edgeShift,
      keepEdge, wrappedOf, roundEven, getPos, V3.sub, V3.normSq, V3.mulComp, V3.zero,
      Mat3.identity, Mat3.diag])

/-- The shift built in the non-periodic branch is the zero vector. -/
theorem mkEdge_s_nonperiodic {positions : List V3} {cell : Mat3} {pbc : PBC}
    (hper : pbc.p0 = false) (p : ℕ × ℕ) :
    (mkEdge positions cell pbc p).s = V3.zero := by
  simp [mkEdge, edgeShift, hper]

/-- C3: for every non-periodic input, every returned edge (i, j) satisfies
norm (pos[i] - pos[j]) at most the cutoff with a zero shift vector, and every
unordered pair of distinct atoms at distance at most the cutoff appears as
exactly the two directed edges (i, j) and (j, i), each with zero shift. -/
theorem c3_nonperiodic_edges
    (positions : List V3) (cell : Mat3) (pbc : PBC) (cutoff : ℚ) (R : List Edge)
    (hper : pbc.p0 = false) (hc : 0 ≤ cutoff)
    (hR : simple_nl positions cell pbc cutoff false = some R) :
    (∀ e ∈ R, e.s = V3.zero ∧
      Real.sqrt ((V3.normSq (V3.sub (getPos positions e.i) (getPos positions e.j)) : ℚ) : ℝ)
        ≤ ((cutoff : ℚ) : ℝ)) ∧
    (∀ i j : ℕ, i < positions.length → j < positions.length → i ≠ j →
      V3.normSq (V3.sub (getPos positions i) (getPos positions j)) ≤ cutoff ^ 2 →
      Edge.mk i j V3.zero ∈ R ∧ Edge.mk j i V3.zero ∈ R ∧
        List.count (Edge.mk i j V3.zero) R = 1 ∧ List.count (Edge.mk j i V3.zero) R = 1 ∧
        (∀ e ∈ R, e.i = i → e.j = j → e = Edge.mk i j V3.zero) ∧
        (∀ e ∈ R, e.i = j → e.j = i → e = Edge.mk j i V3.zero)) := by
  have hRe : R = nlEdges positions cell pbc cutoff false := simple_nl_eq_some hR
  subst hRe
  have hzero : ∀ e ∈ nlEdges positions cell pbc cutoff false, e.s = V3.zero := by
    intro e he
    obtain ⟨-, -, -, hee, -⟩ := mem_nlEdges.mp he
    rw [hee]
    exact mkEdge_s_nonperiodic hper (e.i, e.j)
  have hwr : ∀ e : Edge, e.s = V3.zero →
      wrappedOf positions cell e = V3.sub (getPos positions e.i) (getPos positions e.j) := by
    intro e hes
    unfold wrappedOf
    rw [hes, V3.mulComp_zero_left, V3.sub_zero]
  constructor
  · intro e he
    refine ⟨hzero e he, ?_⟩
    obtain ⟨-, -, -, -, hk⟩ := mem_nlEdges.mp he
    have hke := keepEdge_elim hk
    rw [hwr e (hzero e he)] at hke
    exact sqrt_normSq_le hke.2 hke.1
  · intro i j hi hj hij hd
    have hsE : (mkEdge positions cell pbc (i, j)).s = V3.zero :=
      mkEdge_s_nonperiodic hper (i, j)
    have hEeq : mkEdge positions cell pbc (i, j) = Edge.mk i j V3.zero := by
      rw [show mkEdge positions cell pbc (i, j) =
        Edge.mk i j (mkEdge positions cell pbc (i, j)).s from rfl, hsE]
    have hE'eq : mkEdge positions cell pbc (j, i) = Edge.mk j i V3.zero := by
      rw [show mkEdge positions cell pbc (j, i) =
        Edge.mk j i (mkEdge positions cell pbc (j, i)).s from rfl,
        mkEdge_s_nonperiodic hper (j, i)]
    have hkE : keepEdge positions cell cutoff (mkEdge positions cell pbc (i, j)) = true := by
      unfold keepEdge
      rw [decide_eq_true_eq]
      refine ⟨hc, ?_⟩
      rw [hwr _ hsE]
      exact hd
    have hmE : mkEdge positions cell pbc (i, j) ∈ nlEdges positions cell pbc cutoff false := by
      rw [mem_nlEdges]
      exact ⟨hi, hj, Or.inr hij, rfl, hkE⟩
    have hmE2 : Edge.mk i j V3.zero ∈ nlEdges positions cell pbc cutoff false := by
      rw [← hEeq]; exact hmE
    have hmE' : Edge.mk j i V3.zero ∈ nlEdges positions cell pbc cutoff false := by
      have := nlEdges_reverse_mem hmE2
      simpa [V3.neg, V3.zero] using this
    refine ⟨hmE2, hmE', ?_, ?_, ?_, ?_⟩
    · exact List.count_eq_one_of_mem (nodup_nlEdges positions cell pbc cutoff false) hmE2
    · exact List.count_eq_one_of_mem (nodup_nlEdges positions cell pbc cutoff false) hmE'
    · intro e he hei hej
      obtain ⟨-, -, -, hee, -⟩ := mem_nlEdges.mp he
      rw [hei, hej] at hee
      rw [hee, hEeq]
    · intro e he hei hej
      obtain ⟨-, -, -, hee, -⟩ := mem_nlEdges.mp he
      rw [hei, hej] at hee
      rw [hee, hE'eq]

/-- Witness for C3: scenario A, two atoms at distance 0.5 in a non-periodic
box with cutoff 1; the full conclusion holds for the concretely computed
two-edge zero-shift list. -/
theorem c3_nonperiodic_edges_witness :
    (∀ e ∈ [Edge.mk 0 1 V3.zero, Edge.mk 1 0 V3.zero], e.s = V3.zero ∧
      Real.sqrt ((V3.normSq (V3.sub (getPos [V3.mk 0 0 0, V3.mk 0 0 (1/2)] e.i)
        (getPos [V3.mk 0 0 0, V3.mk 0 0 (1/2)] e.j)) : ℚ) : ℝ) ≤ (((1 : ℚ)) : ℝ)) ∧
    (∀ i j : ℕ, i < ([V3.mk 0 0 0, V3.mk 0 0 (1/2)] : List V3).length →
      j < ([V3.mk 0 0 0, V3.mk 0 0 (1/2)] : List V3).length → i ≠ j →
      V3.normSq (V3.sub (getPos [V3.mk 0 0 0, V3.mk 0 0 (1/2)] i)
        (getPos [V3.mk 0 0 0, V3.mk 0 0 (1/2)] j)) ≤ (1 : ℚ) ^ 2 →
      Edge.mk i j V3.zero ∈ [Edge.mk 0 1 V3.zero, Edge.mk 1 0 V3.zero] ∧
        Edge.mk j i V3.zero ∈ [Edge.mk 0 1 V3.zero, Edge.mk 1 0 V3.zero] ∧
        List.count (Edge.mk i j V3.zero) [Edge.mk 0 1 V3.zero, Edge.mk 1 0 V3.zero] = 1 ∧
        List.count (Edge.mk j i V3.zero) [Edge.mk 0 1 V3.zero, Edge.mk 1 0 V3.zero] = 1 ∧
        (∀ e ∈ [Edge.mk 0 1 V3.zero, Edge.mk 1 0 V3.zero],
          e.i = i → e.j = j → e = Edge.mk i j V3.zero) ∧
        (∀ e ∈ [Edge.mk 0 1 V3.zero, Edge.mk 1 0 V3.zero],
          e.i = j → e.j = i → e = Edge.mk j i V3.zero)) :=
  c3_nonperiodic_edges
    [V3.mk 0 0 0, V3.mk 0 0 (1/2)] Mat3.identity (PBC.mk false false false) 1
    [Edge.mk 0 1 V3.zero, Edge.mk 1 0 V3.zero]
    rfl (by norm_num)
    (by norm_num [simple_nl, nlEdges, nlPairs, allPairs, List.range_succ, mkEdge, edgeShift,
      keepEdge, wrappedOf, roundEven, getPos, V3.sub, V3.normSq, V3.mulComp, V3.zero,
      Mat3.identity, Mat3.diag])

/-- Counterexample to C4: periodic unit cubic cell (minimum edge length 1)
with cutoff exactly 0.5 = 0.5 * 1; the builder does not raise any error, it
returns an edge list (here both directed edges of the atom pair at distance
exactly 0.5, with zero shifts under round-half-to-even). -/
theorem c4_counterexample :
    simple_nl [V3.mk 0 0 0, V3.mk 0 0 (1/2)] Mat3.identity (PBC.mk true true true)
        (1/2) false
      = some [Edge.mk 0 1 V3.zero, Edge.mk 1 0 V3.zero] := by
  norm_num [simple_nl, nlEdges, nlPairs, allPairs, List.range_succ, mkEdge, edgeShift,
    keepEdge, wrappedOf, roundEven, getPos, V3.sub, V3.normSq, V3.mulComp, V3.zero,
    Mat3.identity, Mat3.diag]

/-- C4 amended: the builder performs no cutoff-versus-cell-size check at all;
whenever periodicity is enabled and the cutoff is at least 0.5 times the
minimum cell edge length, on any nonempty input it still returns an edge
list (nearest-image only) instead of raising a precondition error. -/
theorem c4_amended_no_precondition_check
    (positions : List V3) (cell : Mat3) (pbc : PBC) (cutoff : ℚ) (si : Bool)
    (hne : positions ≠ [])
    (hper : pbc.p0 = true)
    (hcut : min cell.m00 (min cell.m11 cell.m22) ≤ 2 * cutoff) :
    (simple_nl positions cell pbc cutoff si).isSome = true := by
  unfold simple_nl
  rw [if_neg]
  · rfl
  · simpa [List.length_eq_zero] using hne

/-- Witness for C4 amended: the concrete half-cell-cutoff input of the
counterexample produces some edge list. -/
theorem c4_amended_no_precondition_check_witness :
    (simple_nl [V3.mk 0 0 0, V3.mk 0 0 (1/2)] Mat3.identity (PBC.mk true true true)
      (1/2) false).isSome = true :=
  c4_amended_no_precondition_check
    [V3.mk 0 0 0, V3.mk 0 0 (1/2)] Mat3.identity (PBC.mk true true true) (1/2) false
    (by simp) rfl (by norm_num [Mat3.identity])

/-- Counterexample to C5: with self-interaction requested, one atom in the
periodic unit cell and cutoff 0.5, the returned list is exactly the
self-edge (0, 0) with the ZERO shift vector: a zero-shift self-pair is
produced, and no nonzero-shift self-pair is. -/
theorem c5_counterexample :
    simple_nl [V3.mk 0 0 0] Mat3.identity (PBC.mk true true true) (1/2) true
      = some [Edge.mk 0 0 V3.zero] := by
  norm_num [simple_nl, nlEdges, nlPairs, allPairs, List.range_succ, mkEdge, edgeShift,
    keepEdge, wrappedOf, roundEven, getPos, V3.sub, V3.normSq, V3.mulComp, V3.zero,
    Mat3.identity, Mat3.diag]

/-- C5 amended: no self-edge is produced unless self-interaction is
explicitly requested; and when it is requested, every returned self-edge
(i, i) carries the ZERO shift vector (the builder wraps to the nearest image
only, so an atom is never paired with a distinct periodic image of itself). -/
theorem c5_amended_self_edges
    (positions : List V3) (cell : Mat3) (pbc : PBC) (cutoff : ℚ) (si : Bool)
    (R : List Edge)
    (hR : simple_nl positions cell pbc cutoff si = some R) :
    (si = false → ∀ e ∈ R, e.i ≠ e.j) ∧
    (∀ e ∈ R, e.i = e.j → e.s = V3.zero) := by
  constructor
  · intro hsi e he
    obtain ⟨-, -, hcond, -, -⟩ := mem_simple_nl_elim hR he
    rcases hcond with h | h
    · rw [hsi] at h
      cases h
    · exact h
  · intro e he heq
    obtain ⟨-, -, -, hee, -⟩ := mem_simple_nl_elim hR he
    have : e.s = (mkEdge positions cell pbc (e.i, e.j)).s := congrArg Edge.s hee
    rw [this]
    show edgeShift cell pbc (V3.sub (getPos positions e.i) (getPos positions e.j)) = V3.zero
    rw [heq, V3.sub_self, edgeShift_of_zero]

/-- Witness for C5 amended: the one-atom self-interaction input of the
counterexample; its single self-edge carries the zero shift. -/
theorem c5_amended_self_edges_witness :
    ((true : Bool) = false → ∀ e ∈ [Edge.mk 0 0 V3.zero], e.i ≠ e.j) ∧
    (∀ e ∈ [Edge.mk 0 0 V3.zero], e.i = e.j → e.s = V3.zero) :=
  c5_amended_self_edges [V3.mk 0 0 0] Mat3.identity (PBC.mk true true true) (1/2) true
    [Edge.mk 0 0 V3.zero]
    (by norm_num [simple_nl, nlEdges, nlPairs, allPairs, List.range_succ, mkEdge, edgeShift,
      keepEdge, wrappedOf, roundEven, getPos, V3.sub, V3.normSq, V3.mulComp, V3.zero,
      Mat3.identity, Mat3.diag])

/-- C6: the zero-atom and one-atom behaviour of the builder.  With zero atoms
the embedded torch.range(0, -1) error makes the call fail (none) instead of
returning an empty edge list as the spec states; with exactly one atom and
self-interaction off the call returns the empty edge list as claimed. -/
theorem c6_zero_one_atom (cell : Mat3) (pbc : PBC) (cutoff : ℚ) (si : Bool) (p : V3) :
    simple_nl [] cell pbc cutoff si = none ∧
    simple_nl [p] cell pbc cutoff false = some [] := by
  constructor
  · rfl
  · unfold simple_nl
    rw [if_neg (by simp)]
    unfold nlEdges
    have h1 : nlPairs ([p] : List V3).length false = [] := by
      have h2 : ([p] : List V3).length = 1 := rfl
      rw [h2]
      decide
    rw [h1]
    rfl

/-- Counterexample to C7: a periodic per-step evaluation with a clearly
non-orthogonal cell (off-diagonal entry 1/2) does not raise any
geometry-precondition error: it returns an edge list, computed from the
diagonal alone. -/
theorem c7_counterexample :
    forwardNL (initState 1 1 (1/2) true none) [V3.mk 0 0 0, V3.mk (1/4) 0 0]
        (some (Mat3.mk 1 (1/2) 0 0 1 0 0 0 1))
      = some [Edge.mk 0 1 V3.zero, Edge.mk 1 0 V3.zero] := by
  norm_num [forwardNL, forwardPositions, forwardCell, initState, Mat3.smul,
    simple_nl, nlEdges, nlPairs, allPairs, List.range_succ, mkEdge, edgeShift,
    keepEdge, wrappedOf, roundEven, getPos, V3.sub, V3.normSq, V3.mulComp, V3.zero,
    V3.smul, Mat3.diag]

/-- C7 amended: a non-orthogonal cell supplied with periodicity is NOT
rejected; the per-step evaluation silently computes, using only the diagonal
entries of the cell: the result is identical to the one for the cell with its
off-diagonal entries cleared, and it is an edge list, not an error. -/
theorem c7_amended_nonorthogonal_not_rejected
    (st : NequIPState) (positions : List V3) (m : Mat3)
    (hne : forwardPositions st positions ≠ []) :
    forwardNL st positions (some m) = forwardNL st positions (some (diagOnly m)) ∧
    (forwardNL st positions (some m)).isSome = true := by
  constructor
  · unfold forwardNL forwardCell
    exact simple_nl_congr _ _ _ rfl rfl rfl rfl
  · unfold forwardNL simple_nl
    rw [if_neg (by simpa [List.length_eq_zero] using hne)]
    rfl

/-- Witness for C7 amended: the concrete skewed-cell input of the
counterexample, where the evaluation returns some edge list and agrees with
the diagonal-only cell. -/
theorem c7_amended_nonorthogonal_not_rejected_witness :
    forwardNL (initState 1 1 (1/2) true none) [V3.mk 0 0 0, V3.mk (1/4) 0 0]
        (some (Mat3.mk 1 (1/2) 0 0 1 0 0 0 1)) =
      forwardNL (initState 1 1 (1/2) true none) [V3.mk 0 0 0, V3.mk (1/4) 0 0]
        (some (diagOnly (Mat3.mk 1 (1/2) 0 0 1 0 0 0 1))) ∧
    (forwardNL (initState 1 1 (1/2) true none) [V3.mk 0 0 0, V3.mk (1/4) 0 0]
        (some (Mat3.mk 1 (1/2) 0 0 1 0 0 0 1))).isSome = true :=
  c7_amended_nonorthogonal_not_rejected (initState 1 1 (1/2) true none)
    [V3.mk 0 0 0, V3.mk (1/4) 0 0] (Mat3.mk 1 (1/2) 0 0 1 0 0 0 1)
    (by norm_num [forwardPositions, initState, V3.smul]
        exact List.cons_ne_nil _ _)

/-- C8: the adapter's output conversion: returned energy is the model energy
times the energy conversion constant; each returned force is the model force
times the same energy constant divided by the length constant; and converting
a force from host units to model units and back with these constants
reproduces the original value exactly (over exact rationals). -/
theorem c8_unit_conversion_roundtrip
    (st : NequIPState) (energy : ℚ) (forces : List V3) (f : V3)
    (hD : st.distanceToNm ≠ 0) (hE : st.energyToKJ ≠ 0) :
    (forwardOutput st energy forces).1 = energy * st.energyToKJ ∧
    (forwardOutput st energy forces).2 =
      forces.map (fun g => V3.smul (st.energyToKJ / st.distanceToNm) g) ∧
    forceToHost st (forceToModel st f) = f := by
  refine ⟨rfl, ?_, ?_⟩
  · unfold forwardOutput
    refine List.map_congr_left (fun g _ => ?_)
    unfold V3.smul
    rw [V3.mk.injEq]
    refine ⟨by ring, by ring, by ring⟩
  · unfold forceToHost forceToModel V3.smul
    have hx : st.energyToKJ / st.distanceToNm * (st.distanceToNm / st.energyToKJ * f.x) = f.x := by
      field_simp
      ring
    have hy : st.energyToKJ / st.distanceToNm * (st.distanceToNm / st.energyToKJ * f.y) = f.y := by
      field_simp
      ring
    have hz : st.energyToKJ / st.distanceToNm * (st.distanceToNm / st.energyToKJ * f.z) = f.z := by
      field_simp
      ring
    rw [hx, hy, hz]

/-- Witness for C8: concrete constants distance_to_nm = 2, energy_to_kJ = 3,
a one-force output and a concrete round-tripped force. -/
theorem c8_unit_conversion_roundtrip_witness :
    (forwardOutput (NequIPState.mk (1/2) 2 3 (PBC.mk true true true) (1/2) none) 5
      [V3.mk 1 2 3]).1 = 5 * (NequIPState.mk (1/2) 2 3 (PBC.mk true true true) (1/2)
        none).energyToKJ ∧
    (forwardOutput (NequIPState.mk (1/2) 2 3 (PBC.mk true true true) (1/2) none) 5
      [V3.mk 1 2 3]).2 =
      ([V3.mk 1 2 3] : List V3).map (fun g =>
        V3.smul ((NequIPState.mk (1/2) 2 3 (PBC.mk true true true) (1/2) none).energyToKJ /
          (NequIPState.mk (1/2) 2 3 (PBC.mk true true true) (1/2) none).distanceToNm) g) ∧
    forceToHost (NequIPState.mk (1/2) 2 3 (PBC.mk true true true) (1/2) none)
      (forceToModel (NequIPState.mk (1/2) 2 3 (PBC.mk true true true) (1/2) none)
        (V3.mk 7 (-2) (1/3))) = V3.mk 7 (-2) (1/3) :=
  c8_unit_conversion_roundtrip (NequIPState.mk (1/2) 2 3 (PBC.mk true true true) (1/2) none)
    5 [V3.mk 1 2 3] (V3.mk 7 (-2) (1/3)) (by norm_num) (by norm_num)

/-- C9: the builder's output depends only on pbc[0] and the diagonal cell
entries: two invocations agreeing on positions, cutoff, self-interaction,
pbc[0] and the cell diagonal return identical edge and shift lists, whatever
pbc[1], pbc[2] and the off-diagonal cell entries are. -/
theorem c9_depends_only_on_pbc0_and_diagonal
    (positions : List V3) (cutoff : ℚ) (si : Bool) (c1 c2 : Mat3) (b1 b2 : PBC)
    (h0 : b1.p0 = b2.p0) (h00 : c1.m00 = c2.m00) (h11 : c1.m11 = c2.m11)
    (h22 : c1.m22 = c2.m22) :
    simple_nl positions c1 b1 cutoff si = simple_nl positions c2 b2 cutoff si :=
  simple_nl_congr positions cutoff si h0 h00 h11 h22

/-- Witness for C9: a heavily skewed cell with pbc (true, false, true) gives
the same output as the identity cell with pbc (true, true, false). -/
theorem c9_depends_only_on_pbc0_and_diagonal_witness :
    simple_nl [V3.mk 0 0 0, V3.mk (1/4) 0 0] (Mat3.mk 1 (1/2) (1/3) (1/4) 1 (1/5) (1/6) (1/7) 1)
        (PBC.mk true false true) (1/2) false =
      simple_nl [V3.mk 0 0 0, V3.mk (1/4) 0 0] Mat3.identity
        (PBC.mk true true false) (1/2) false :=
  c9_depends_only_on_pbc0_and_diagonal [V3.mk 0 0 0, V3.mk (1/4) 0 0] (1/2) false
    (Mat3.mk 1 (1/2) (1/3) (1/4) 1 (1/5) (1/6) (1/7) 1) Mat3.identity
    (PBC.mk true false true) (PBC.mk true true false) rfl rfl rfl rfl

/-- C10: when the box-vectors argument is absent, the cell passed on to the
neighbor-list builder (and to the model input record) is torch.eye(3) while
pbc keeps its initialization value; for a periodic adapter this means
minimum-image wrapping by edge lengths 1: the shift of an edge is the
componentwise round of the raw displacement itself. -/
theorem c10_no_boxvectors_identity_cell
    (distanceToNm energyToKJ rMax : ℚ) (indices : Option (List ℕ)) (positions : List V3) :
    forwardNL (initState distanceToNm energyToKJ rMax true indices) positions none =
      simple_nl (forwardPositions (initState distanceToNm energyToKJ rMax true indices)
        positions) Mat3.identity (PBC.mk true true true) rMax false ∧
    (∀ d : V3, edgeShift Mat3.identity (PBC.mk true true true) d =
      V3.mk ((roundEven d.x : ℤ) : ℚ) ((roundEven d.y : ℤ) : ℚ) ((roundEven d.z : ℤ) : ℚ)) := by
  constructor
  · rfl
  · intro d
    unfold edgeShift
    rw [if_pos rfl]
    norm_num [Mat3.identity]

end OpenMMML
